import Mathlib

/-!
Verification development for the heuristic PDF-text extraction pipeline of
`Data_analysis.py` (block segmenter, section locator, row extractor,
numeric/date normalizer, aggregator).

The Python source is shallowly embedded on `List Char`.  Conventions:

* Python `\s`, `\d`, `\w` and `str.strip` are modelled over their ASCII
  character sets (the documents handled by the script are ASCII text).
* Python `float` of a decimal literal is modelled exactly as a rational
  number (`ℚ`); the tokens accepted by the script's numeric-literal regex
  are plain decimal literals, for which the decimal value is the intended
  reading (IEEE rounding is outside the scope of this embedding).
* `pandas.Timestamp` values produced by `pd.to_datetime(s, errors='coerce')`
  are only ever built from strings matching `20\d{2}-\d{2}-\d{2}`; they are
  modelled as the natural number `y * 10000 + m * 100 + d` (order-isomorphic
  to the chronological order on such dates), with `none` for `NaT`
  (calendar-invalid strings are coerced to `NaT`).
* All regular-expression rules of the source are compiled by hand to
  deterministic functions; where the regex engine's backtracking can take
  several routes, the embedding follows the leftmost/greedy disambiguation
  of Python's `re` module (comments at each definition justify the cases).
-/

/-- Python `\s` on ASCII: space, tab, newline, carriage return, vertical
tab, form feed. -/
def isPySpace (c : Char) : Bool :=
  c = ' ' || c = '\t' || c = '\n' || c = '\r' || c = '\x0b' || c = '\x0c'

/-- Python `\w` on ASCII: letters, digits, underscore. -/
def isWordChar (c : Char) : Bool :=
  c.isAlpha || c.isDigit || c = '_'

/-- Python `str.strip()` (whitespace from both ends). -/
def pyStrip (cs : List Char) : List Char :=
  ((cs.dropWhile isPySpace).reverse.dropWhile isPySpace).reverse

/-- `re.split(r'\s+', s)`: maximal whitespace runs are separators; leading
or trailing runs contribute empty fields, and `re.split(r'\s+', "")` is
`[""]`. -/
def splitWS : List Char → List (List Char)
  | [] => [[]]
  | c :: cs =>
      if isPySpace c then
        match cs with
        | [] => [[], []]
        | c2 :: _ => if isPySpace c2 then splitWS cs else [] :: splitWS cs
      else
        match splitWS cs with
        | [] => [[c]]
        | t :: ts => (c :: t) :: ts

/-- Characters splitting lines in `str.splitlines()` that occur in the
ASCII range handled by this embedding. -/
def isLineBreak (c : Char) : Bool :=
  c = '\n' || c = '\r' || c = '\x0b' || c = '\x0c' ||
    c = '\x1c' || c = '\x1d' || c = '\x1e'

/-- Python `str.splitlines()`: terminators are dropped, `"\r\n"` counts as
one break, and a trailing terminator adds no empty line. -/
def splitlinesL : List Char → List (List Char)
  | [] => []
  | ['\r'] => [[]]
  | '\r' :: '\n' :: cs => [] :: splitlinesL cs
  | c :: cs =>
      if isLineBreak c then [] :: splitlinesL cs
      else
        match splitlinesL cs with
        | [] => [[c]]
        | l :: ls => (c :: l) :: ls

/-- `cs.all Char.isDigit` as a named predicate. -/
def allDigits (cs : List Char) : Bool := cs.all Char.isDigit

/-- Digit list to number, most significant first. -/
def digitsToNat (cs : List Char) : ℕ :=
  cs.foldl (fun n c => 10 * n + (c.toNat - 48)) 0

/-- Body of the numeric-literal regex `\d+(\.\d+)?` (after the optional
sign): a nonempty digit run, optionally followed by a dot and a nonempty
digit run, with nothing left over. -/
def numBody (r : List Char) : Bool :=
  !(r.takeWhile Char.isDigit).isEmpty &&
    (match r.dropWhile Char.isDigit with
     | [] => true
     | c :: fr => c = '.' && !fr.isEmpty && allDigits fr)

/-- Full match of `^-?\d+(\.\d+)?$` (the guard inside
`_last_numeric_token`). -/
def isNumericToken (t : List Char) : Bool :=
  match t with
  | [] => false
  | c :: r => if c = '-' then numBody r else numBody (c :: r)

/-- Exact decimal value of the body of a matching token (for tokens
accepted by `numBody`, the dropped head of the fractional part is the
dot).  Built with `mkRat` so that it evaluates by kernel reduction; the
bridge to the textbook reading `int + frac / 10 ^ k` is
`decValue_append_dot`. -/
def decBody (r : List Char) : ℚ :=
  match r.dropWhile Char.isDigit with
  | [] => mkRat (digitsToNat (r.takeWhile Char.isDigit)) 1
  | _ :: fr =>
      mkRat (digitsToNat (r.takeWhile Char.isDigit) * 10 ^ fr.length + digitsToNat fr)
        (10 ^ fr.length)

/-- Exact decimal value of a token matching the numeric-literal regex. -/
def decValue (t : List Char) : ℚ :=
  match t with
  | [] => 0
  | c :: r => if c = '-' then - decBody r else decBody (c :: r)

/-- Optional exponent part of a Python float literal (`e`/`E`, optional
sign, digits); yields the decimal exponent, or `none` if malformed. -/
def pyExpPart : List Char → Option ℤ
  | [] => some 0
  | c :: r =>
      if c = 'e' || c = 'E' then
        match r with
        | [] => none
        | c2 :: r2 =>
            if c2 = '+' then
              if !r2.isEmpty && allDigits r2 then some (digitsToNat r2 : ℤ) else none
            else if c2 = '-' then
              if !r2.isEmpty && allDigits r2 then some (-(digitsToNat r2 : ℤ)) else none
            else if allDigits (c2 :: r2) then some (digitsToNat (c2 :: r2) : ℤ) else none
      else none

/-- `num / den` scaled by `10 ^ e`. -/
def scaleByPow10 (e : ℤ) (num den : ℕ) : ℚ :=
  if 0 ≤ e then mkRat (num * 10 ^ e.toNat) den else mkRat num (den * 10 ^ (-e).toNat)

/-- Unsigned part of Python's `float()` on finite decimal literals:
`digits [. digits]` or `. digits`, with an optional exponent.  (`inf`/`nan`
spellings and underscores are irrelevant to the tokens produced by the
script and are not modelled.) -/
def pyFloatCore (cs : List Char) : Option ℚ :=
  let ds := cs.takeWhile Char.isDigit
  match cs.dropWhile Char.isDigit with
  | [] =>
      if ds.isEmpty then none
      else some (mkRat (digitsToNat ds) 1)
  | c :: r2 =>
      if c = '.' then
        let fs := r2.takeWhile Char.isDigit
        let r3 := r2.dropWhile Char.isDigit
        if ds.isEmpty && fs.isEmpty then none
        else (pyExpPart r3).map
          (fun e => scaleByPow10 e (digitsToNat ds * 10 ^ fs.length + digitsToNat fs)
            (10 ^ fs.length))
      else if ds.isEmpty then none
      else (pyExpPart (c :: r2)).map (fun e => scaleByPow10 e (digitsToNat ds) 1)

/-- Python `float(t)` on a finite decimal literal: `some` of its exact
value, `none` where `float` raises `ValueError`. -/
def pyFloatQ : List Char → Option ℚ
  | [] => none
  | c :: r =>
      if c = '+' then pyFloatCore r
      else if c = '-' then (pyFloatCore r).map Neg.neg
      else pyFloatCore (c :: r)

/-- The loop of `_last_numeric_token` over the reversed token list: the
first token matching the numeric regex is converted with `float`; a
`ValueError` in the conversion would fall through to the next token. -/
def lastNumLoop : List (List Char) → Option ℚ
  | [] => none
  | t :: rest =>
      if isNumericToken t then
        match pyFloatQ t with
        | some v => some v
        | none => lastNumLoop rest
      else lastNumLoop rest

/-- `_last_numeric_token(tokens)`: value of the last numeric token of
`tokens`, else `none`. -/
def lastNumericToken (tokens : List (List Char)) : Option ℚ :=
  lastNumLoop tokens.reverse

theorem allDigits_takeWhile_eq_self {fr : List Char} (h : allDigits fr = true) :
    fr.takeWhile Char.isDigit = fr := by
  induction fr with
  | nil => rfl
  | cons c cs ih =>
      simp only [allDigits, List.all_cons, Bool.and_eq_true] at h
      simp [List.takeWhile_cons, h.1, ih (by simpa [allDigits] using h.2)]

theorem allDigits_dropWhile_eq_nil {fr : List Char} (h : allDigits fr = true) :
    fr.dropWhile Char.isDigit = [] := by
  induction fr with
  | nil => rfl
  | cons c cs ih =>
      simp only [allDigits, List.all_cons, Bool.and_eq_true] at h
      simp [List.dropWhile_cons, h.1, ih (by simpa [allDigits] using h.2)]

/-- On a token body accepted by `numBody`, the float parse succeeds with
exactly the decimal value. -/
theorem pyFloatCore_of_numBody {r : List Char} (h : numBody r = true) :
    pyFloatCore r = some (decBody r) := by
  simp only [numBody, Bool.and_eq_true, Bool.not_eq_true'] at h
  obtain ⟨hds, hrest⟩ := h
  cases hcase : r.dropWhile Char.isDigit with
  | nil =>
      simp [pyFloatCore, decBody, hcase, hds, pyExpPart]
  | cons c fr =>
      rw [hcase] at hrest
      simp only [Bool.and_eq_true, decide_eq_true_eq, Bool.not_eq_true'] at hrest
      obtain ⟨⟨hc, hfr⟩, hall⟩ := hrest
      subst hc
      simp [pyFloatCore, decBody, hcase, hds, pyExpPart, scaleByPow10,
        allDigits_takeWhile_eq_self hall, allDigits_dropWhile_eq_nil hall]

/-- On a token accepted by the numeric-literal regex, `float` succeeds and
returns exactly the token's decimal value (so the `except: continue`
branch of `_last_numeric_token` is unreachable). -/
theorem pyFloatQ_of_isNumericToken {t : List Char} (h : isNumericToken t = true) :
    pyFloatQ t = some (decValue t) := by
  cases t with
  | nil => simp [isNumericToken] at h
  | cons c r =>
      by_cases hc : c = '-'
      · subst hc
        simp only [isNumericToken, if_pos rfl] at h
        simp [pyFloatQ, decValue, pyFloatCore_of_numBody h]
      · have hplus : c ≠ '+' := by
          intro hp
          subst hp
          simp [isNumericToken, numBody, List.takeWhile_cons] at h
        simp only [isNumericToken, if_neg hc] at h
        simp [pyFloatQ, decValue, hc, hplus, pyFloatCore_of_numBody h]

theorem lastNumLoop_eq_findMap (l : List (List Char)) :
    lastNumLoop l = (l.find? isNumericToken).map decValue := by
  induction l with
  | nil => rfl
  | cons t rest ih =>
      by_cases h : isNumericToken t = true
      · rw [lastNumLoop, if_pos h, pyFloatQ_of_isNumericToken h,
          List.find?_cons_of_pos _ h, Option.map_some']
      · have h' : isNumericToken t = false := by simpa using h
        rw [lastNumLoop, if_neg (by simp [h']), List.find?_cons_of_neg _ (by simp [h']), ih]

/-! ### Row extractor: the line-level rules of `parse_daily_lines_to_rows` -/

/-- Anchored `20\d{2}-\d{2}-\d{2}`: the ten date characters and the
remainder. -/
def matchIsoStart : List Char → Option (List Char × List Char)
  | '2' :: '0' :: a :: b :: '-' :: c :: d :: '-' :: e :: f :: rest =>
      if a.isDigit && b.isDigit && c.isDigit && d.isDigit && e.isDigit && f.isDigit then
        some (['2', '0', a, b, '-', c, d, '-', e, f], rest)
      else none
  | _ => none

/-- One `:\d{2}` unit of the clock pattern. -/
def colonTwo : List Char → Option (List Char)
  | ':' :: a :: b :: r => if a.isDigit && b.isDigit then some r else none
  | _ => none

/-- `\d{1,2}:\d{2}:\d{2}`.  Greedy `\d{1,2}` tries two digits first and
falls back to one digit if the continuation fails, exactly as the regex
backtracks. -/
def matchClock : List Char → Option (List Char)
  | a :: rest =>
      if a.isDigit then
        let two : Option (List Char) :=
          match rest with
          | b :: rest2 =>
              if b.isDigit then
                match colonTwo rest2 with
                | some r => colonTwo r
                | none => none
              else none
          | [] => none
        match two with
        | some r => some r
        | none =>
            match colonTwo rest with
            | some r => colonTwo r
            | none => none
      else none
  | [] => none

/-- The optional clock group `(?:\s+\d{1,2}:\d{2}:\d{2})?`: at least one
whitespace character, then the clock.  Greedy `\s+` necessarily takes the
maximal run (a shorter run would put a whitespace character where a digit
is required). -/
def clockTry : List Char → Option (List Char)
  | c :: cs => if isPySpace c then matchClock (cs.dropWhile isPySpace) else none
  | [] => none

/-- The word boundary `\b` after the date or clock digits: satisfied iff
the next character is absent or not a word character (the preceding
character is always a digit there). -/
def boundaryOK : List Char → Bool
  | [] => true
  | c :: _ => !isWordChar c

/-- Remainder of the line after the optionally matched and discarded clock
time (the regex drops the optional group when the boundary after the clock
fails). -/
def discardTime (tail : List Char) : List Char :=
  match clockTry tail with
  | some r => if boundaryOK r then r else tail
  | none => tail

/-- Rule 1 of the cascade,
`^(20\d{2}-\d{2}-\d{2})(?:\s+\d{1,2}:\d{2}:\d{2})?\b(.*)$`:
the captured date and group 2 (the rest of the line; lines produced by
`splitlines` contain no newline, so `(.*)$` is the whole remainder). -/
def isoRule (ln : List Char) : Option (List Char × List Char) :=
  match matchIsoStart ln with
  | none => none
  | some (d, tail) =>
      match clockTry tail with
      | some r =>
          if boundaryOK r then some (d, r)
          else if boundaryOK tail then some (d, tail)
          else none
      | none => if boundaryOK tail then some (d, tail) else none

/-- The optional range extension `(?:\s+to\s+\d{1,2}\s+\w+)?` of rule 2:
the matched text and the remainder.  Every quantifier inside is forced
(each `\s+`/`\w+` run is followed by a character of a disjoint class, and
a digit run of length three or more fails both `\d{1,2}` alternatives),
so the group matches in at most one way. -/
def matchToExt (cs : List Char) : Option (List Char × List Char) :=
  let sp := cs.takeWhile isPySpace
  if sp.isEmpty then none
  else
    match cs.dropWhile isPySpace with
    | t :: o :: r2 =>
        if t.toLower = 't' && o.toLower = 'o' then
          let sp2 := r2.takeWhile isPySpace
          let r3 := r2.dropWhile isPySpace
          if sp2.isEmpty then none
          else
            let ds2 := r3.takeWhile Char.isDigit
            let r4 := r3.dropWhile Char.isDigit
            if ds2.isEmpty || 2 < ds2.length then none
            else
              let sp3 := r4.takeWhile isPySpace
              let r5 := r4.dropWhile isPySpace
              if sp3.isEmpty then none
              else
                let w2 := r5.takeWhile isWordChar
                let r6 := r5.dropWhile isWordChar
                if w2.isEmpty then none
                else some (sp ++ [t, o] ++ sp2 ++ ds2 ++ sp3 ++ w2, r6)
        else none
    | _ => none

/-- The closing `\s+(.*)$` of rule 2: at least one whitespace character;
greedy `\s+` takes the maximal run and `(.*)` the remainder. -/
def finalTail : List Char → Option (List Char)
  | c :: cs => if isPySpace c then some (cs.dropWhile isPySpace) else none
  | [] => none

/-- Rule 2 of the cascade,
`^(\d{1,2}\s+\w+(?:\s+to\s+\d{1,2}\s+\w+)?)\s+(.*)$` with IGNORECASE:
the captured date phrase and group 2.  The leading `\d{1,2}`, `\s+`, `\w+`
are forced as in `matchToExt`; when the optional group matches but no
whitespace follows it, the regex backtracks to dropping the group. -/
def phraseRule (ln : List Char) : Option (List Char × List Char) :=
  let ds := ln.takeWhile Char.isDigit
  let r1 := ln.dropWhile Char.isDigit
  if ds.isEmpty || 2 < ds.length then none
  else
    let s1 := r1.takeWhile isPySpace
    let r2 := r1.dropWhile isPySpace
    if s1.isEmpty then none
    else
      let w := r2.takeWhile isWordChar
      let r3 := r2.dropWhile isWordChar
      if w.isEmpty then none
      else
        match matchToExt r3 with
        | some (ext, r4) =>
            match finalTail r4 with
            | some rest => some (ds ++ s1 ++ w ++ ext, rest)
            | none =>
                match finalTail r3 with
                | some rest => some (ds ++ s1 ++ w, rest)
                | none => none
        | none =>
            match finalTail r3 with
            | some rest => some (ds ++ s1 ++ w, rest)
            | none => none

/-- Rule 3's `re.search(r'(20\d{2}-\d{2}-\d{2})', ln)`: leftmost embedded
ISO date. -/
def searchIso : List Char → Option (List Char)
  | [] => none
  | c :: cs =>
      match matchIsoStart (c :: cs) with
      | some (d, _) => some d
      | none => searchIso cs

/-- Python `str.replace(needle, '')`: removes every occurrence of the
(here always ten-character) needle, scanning left to right without
overlap. -/
def removeSub (needle : List Char) (l : List Char) : List Char :=
  match l with
  | [] => []
  | c :: cs =>
      if needle.isPrefixOf (c :: cs) then removeSub needle (List.drop (needle.length - 1) cs)
      else c :: removeSub needle cs
termination_by l.length
decreasing_by
  · simp only [List.length_cons, List.length_drop]
    omega
  · simp only [List.length_cons]
    omega

/-- `ln[:40] + ("..." if len(ln) > 40 else "")`. -/
def truncate40 (ln : List Char) : List Char :=
  ln.take 40 ++ (if 40 < ln.length then ['.', '.', '.'] else [])

/-- Gregorian leap year. -/
def isLeap (y : ℕ) : Bool :=
  (y % 4 == 0) && (!(y % 100 == 0) || y % 400 == 0)

/-- Days of a month (month already known to lie in `1..12`). -/
def daysInMonth (y m : ℕ) : ℕ :=
  if m == 2 then (if isLeap y then 29 else 28)
  else if m == 4 || m == 6 || m == 9 || m == 11 then 30
  else 31

/-- `_try_parse_date` on the strings the extractor hands to it (always of
shape `20\d{2}-\d{2}-\d{2}`): `pd.to_datetime(s, errors='coerce')` yields
the corresponding timestamp, modelled as `y * 10000 + m * 100 + d`, or
`NaT` (`none`) when the digits do not form a calendar date. -/
def tryParseDate (cs : List Char) : Option ℕ :=
  match cs with
  | [y1, y2, y3, y4, '-', m1, m2, '-', d1, d2] =>
      if y1.isDigit && y2.isDigit && y3.isDigit && y4.isDigit &&
          m1.isDigit && m2.isDigit && d1.isDigit && d2.isDigit then
        let y := 1000 * (y1.toNat - 48) + 100 * (y2.toNat - 48) + 10 * (y3.toNat - 48) + (y4.toNat - 48)
        let m := 10 * (m1.toNat - 48) + (m2.toNat - 48)
        let d := 10 * (d1.toNat - 48) + (d2.toNat - 48)
        if 1 ≤ m ∧ m ≤ 12 ∧ 1 ≤ d ∧ d ≤ daysInMonth y m then
          some (10000 * y + 100 * m + d)
        else none
      else none
  | _ => none

/-- One `ExtractedRecord`: `(date_raw, date_parsed, rest, ivt)`. -/
structure Row where
  date_raw : List Char
  date_parsed : Option ℕ
  rest : List Char
  ivt : Option ℚ
deriving DecidableEq

/-- The per-line cascade in the loop body of `parse_daily_lines_to_rows`
(applied to a stripped nonempty line): ISO-anchored rule, phrase-date
rule, embedded-ISO rule, generic fallback.  At most one record per line,
`none` when the fallback finds no numeric token. -/
def parseLine (ln : List Char) : Option Row :=
  match isoRule ln with
  | some (d, g2) =>
      let rest := pyStrip g2
      let tokens := if rest.isEmpty then [] else splitWS rest
      some ⟨d, tryParseDate d, rest, lastNumericToken tokens⟩
  | none =>
  match phraseRule ln with
  | some (dl, rest) => some ⟨dl, none, rest, lastNumericToken (splitWS rest)⟩
  | none =>
  match searchIso ln with
  | some d =>
      let rest := pyStrip (removeSub d ln)
      some ⟨d, tryParseDate d, rest, lastNumericToken (splitWS rest)⟩
  | none =>
  match lastNumericToken (splitWS ln) with
  | some v => some ⟨truncate40 ln, none, ln, some v⟩
  | none => none

/-- `parse_daily_lines_to_rows`: strip each line, skip blank lines, apply
the cascade. -/
def parse_daily_lines_to_rows (txt : List Char) : List Row :=
  (splitlinesL txt).filterMap
    (fun l => let s := pyStrip l; if s.isEmpty then none else parseLine s)

example :
    parseLine "2025-09-12 0:00:00 foo bar 0.00427".toList =
      some ⟨"2025-09-12".toList, some 20250912, "foo bar 0.00427".toList,
        some (mkRat 427 100000)⟩ := by decide

example :
    parseLine "11 Sep to 15 Sep 1191603 1189884 0.00427".toList =
      some ⟨"11 Sep to 15 Sep".toList, none, "1191603 1189884 0.00427".toList,
        some (mkRat 427 100000)⟩ := by decide

example : parseLine "Section Header Only".toList = none := by decide

example :
    parseLine "1999-01-02 x 0.5".toList =
      some ⟨"1999-01-02 x 0.5".toList, none, "1999-01-02 x 0.5".toList,
        some (mkRat 1 2)⟩ := by decide

/-! ### Case-insensitive matching and the block segmenter `split_app_blocks` -/

/-- Case-insensitive literal match of the (pre-lowercased) pattern at the
head of the text, returning the remainder. -/
def stripCI : List Char → List Char → Option (List Char)
  | [], cs => some cs
  | _ :: _, [] => none
  | p :: ps, c :: cs => if c.toLower = p then stripCI ps cs else none

/-- Case-insensitive prefix test for a pre-lowercased pattern. -/
def prefCI (pat cs : List Char) : Bool := (stripCI pat cs).isSome

/-- Case-insensitive substring occurrence for a pre-lowercased pattern. -/
def occursCI (pat : List Char) : List Char → Bool
  | [] => pat.isEmpty
  | c :: cs => prefCI pat (c :: cs) || occursCI pat cs

/-- The `'Total Data'` delimiter phrase, lowercased. -/
def totalLower : List Char := "total data".toList

/-- The `'Daily Data'` start marker, lowercased. -/
def dailyLower : List Char := "daily data".toList

/-- The `'Hourly Data'` end marker, lowercased. -/
def hourlyLower : List Char := "hourly data".toList

/-- Greedy `\s*\n`: consumes whitespace through the last newline of the
maximal whitespace run (the regex backtracks from the full run to the
rightmost position where the mandatory `\n` matches); fails when the run
contains no newline. -/
def chompNL : List Char → Option (List Char)
  | [] => none
  | c :: rest =>
      if isPySpace c then
        match chompNL rest with
        | some r => some r
        | none => if c = '\n' then some rest else none
      else none

/-- One match of `re.split`'s pattern `\n\s*Total Data\s*\n` (IGNORECASE)
at the head of the text: the leading `\s*` is forced to the maximal run
(the literal starts with a non-space), the trailing `\s*\n` is `chompNL`.
Returns the text after the match. -/
def matchDelimAt : List Char → Option (List Char)
  | [] => none
  | c :: rest =>
      if c = '\n' then
        match stripCI totalLower (rest.dropWhile isPySpace) with
        | some r2 => chompNL r2
        | none => none
      else none

theorem stripCI_length_le :
    ∀ {pat cs r : List Char}, stripCI pat cs = some r → r.length ≤ cs.length := by
  intro pat
  induction pat with
  | nil => intro cs r h; cases h; exact Nat.le_refl _
  | cons p ps ih =>
      intro cs r h
      cases cs with
      | nil => cases h
      | cons c cs' =>
          rw [stripCI] at h
          split at h
          · exact Nat.le_succ_of_le (ih h)
          · cases h

theorem dropWhile_length_le (p : Char → Bool) :
    ∀ cs : List Char, (cs.dropWhile p).length ≤ cs.length := by
  intro cs
  induction cs with
  | nil => exact Nat.le_refl _
  | cons c cs' ih =>
      rw [List.dropWhile_cons]
      split
      · exact Nat.le_succ_of_le ih
      · exact Nat.le_refl _

theorem chompNL_length_lt :
    ∀ {cs r : List Char}, chompNL cs = some r → r.length < cs.length := by
  intro cs
  induction cs with
  | nil => intro r h; simp [chompNL] at h
  | cons c cs' ih =>
      intro r h
      rw [chompNL] at h
      by_cases hsp : isPySpace c = true
      · rw [if_pos hsp] at h
        cases hrec : chompNL cs' with
        | some r2 =>
            rw [hrec] at h
            injection h with h'
            subst h'
            have := ih hrec
            simp only [List.length_cons]
            omega
        | none =>
            rw [hrec] at h
            by_cases hnl : c = '\n'
            · rw [if_pos hnl] at h
              injection h with h'
              subst h'
              simp only [List.length_cons]
              omega
            · rw [if_neg hnl] at h; simp at h
      · rw [if_neg hsp] at h; simp at h

theorem matchDelimAt_length_lt :
    ∀ {cs r : List Char}, matchDelimAt cs = some r → r.length < cs.length := by
  intro cs r h
  cases cs with
  | nil => simp [matchDelimAt] at h
  | cons c rest =>
      rw [matchDelimAt] at h
      by_cases hc : c = '\n'
      · rw [if_pos hc] at h
        cases hstrip : stripCI totalLower (rest.dropWhile isPySpace) with
        | none => rw [hstrip] at h; simp at h
        | some r2 =>
            rw [hstrip] at h
            have h1 := chompNL_length_lt h
            have h2 := stripCI_length_le hstrip
            have h3 := dropWhile_length_le isPySpace rest
            simp only [List.length_cons]
            omega
      · rw [if_neg hc] at h; simp at h

/-- `re.split(r'\n\s*Total Data\s*\n', text, flags=re.IGNORECASE)`, with
fuel for structural termination (any fuel above the text length gives the
split; `splitParts` supplies it). -/
def splitPartsF : ℕ → List Char → List (List Char)
  | 0, cs => [cs]
  | _ + 1, [] => [[]]
  | fuel + 1, c :: cs =>
      match matchDelimAt (c :: cs) with
      | some r => [] :: splitPartsF fuel r
      | none =>
          match splitPartsF fuel cs with
          | [] => [[c]]
          | p :: ps => (c :: p) :: ps

/-- The parts of the delimiter split, leftmost matches first; the head
part is the text before the first match. -/
def splitParts (cs : List Char) : List (List Char) :=
  splitPartsF (cs.length + 1) cs

/-- Number of (non-overlapping, leftmost) matches of the delimiter
pattern, with the same fuel convention. -/
def delimCountF : ℕ → List Char → ℕ
  | 0, _ => 0
  | _ + 1, [] => 0
  | fuel + 1, c :: cs =>
      match matchDelimAt (c :: cs) with
      | some r => delimCountF fuel r + 1
      | none => delimCountF fuel cs

/-- Number of delimiter-pattern matches in the text. -/
def delimMatchCount (cs : List Char) : ℕ :=
  delimCountF (cs.length + 1) cs

/-- `split_app_blocks`: drop the part before the first delimiter; if the
pattern never matches, the whole text is the single block. -/
def split_app_blocks (text : List Char) : List (List Char) :=
  let parts := splitParts text
  if parts.length ≤ 1 then [text] else parts.drop 1

/-! ### Section locator `find_daily_section` -/

/-- The closing `\n\s*Hourly Data` of the bounded section pattern: a
newline, then (forced maximal) whitespace, then the end marker. -/
def closingAt : List Char → Bool
  | [] => false
  | c :: r => c = '\n' && prefCI hourlyLower (r.dropWhile isPySpace)

/-- The lazy `(.*?)` of `Daily Data\s*\n(.*?)\n\s*Hourly Data` under
DOTALL: the shortest prefix whose continuation starts the closing
pattern; `none` when no closing follows. -/
def lazyClose : List Char → Option (List Char)
  | [] => none
  | c :: cs =>
      if closingAt (c :: cs) then some []
      else (lazyClose cs).map (fun g => c :: g)

/-- Greedy `\s*\n` followed by the lazy group and the closing pattern:
tries the newline split points right-to-left within the whitespace run
(the regex prefers consuming more of `\s*`). -/
def dailyAlt : List Char → Option (List Char)
  | [] => none
  | c :: cs =>
      if isPySpace c then
        match dailyAlt cs with
        | some g => some g
        | none => if c = '\n' then lazyClose cs else none
      else none

/-- `re.search(r'Daily Data\s*\n(.*?)\n\s*Hourly Data', block, re.S|re.I)`:
leftmost position where the whole pattern matches; yields group 1. -/
def searchDaily1 : List Char → Option (List Char)
  | [] => none
  | c :: cs =>
      match
        (match stripCI dailyLower (c :: cs) with
         | some after => dailyAlt after
         | none => none) with
      | some g => some g
      | none => searchDaily1 cs

/-- `re.search(r'Daily Data\s*\n(.*)', block, re.S|re.I)`: leftmost
position where the start marker is completed by `\s*\n`; group 1 is
everything after. -/
def searchDaily2 : List Char → Option (List Char)
  | [] => none
  | c :: cs =>
      match
        (match stripCI dailyLower (c :: cs) with
         | some after => chompNL after
         | none => none) with
      | some g => some g
      | none => searchDaily2 cs

/-- `find_daily_section`: the bounded pattern, else the unbounded
pattern, else the empty section. -/
def find_daily_section (block : List Char) : List Char :=
  match searchDaily1 block with
  | some g => g
  | none =>
      match searchDaily2 block with
      | some g => g
      | none => []

example :
    split_app_blocks "intro\nTotal Data\nA\nTotal Data\nB".toList =
      ["A".toList, "B".toList] := by decide

example :
    split_app_blocks "Total Data\nx".toList = ["Total Data\nx".toList] := by decide

example : delimMatchCount "intro\nTotal Data\nA\nTotal Data\nB".toList = 2 := by decide

example : find_daily_section "Daily Data\nX\nHourly Data".toList = "X".toList := by decide

example : find_daily_section "Daily Data Hourly Data".toList = [] := by decide

example : find_daily_section "pre Daily Data\nM1\nM2".toList = "M1\nM2".toList := by decide

example : find_daily_section "Daily Data\n\nHourly Data".toList = [] := by decide

/-! ### Aggregator (`generate_report`): summary flags and the combined series -/

/-- Rational addition written through `mkRat` (definitionally evaluable);
`qadd_eq_add` identifies it with `+`. -/
def qadd (a b : ℚ) : ℚ := mkRat (a.num * b.den + b.num * a.den) (a.den * b.den)

/-- Division of a rational by a natural, through `mkRat`;
`qdivNat_eq_div` identifies it with `/`. -/
def qdivNat (a : ℚ) (n : ℕ) : ℚ := mkRat a.num (a.den * n)

/-- Mean of a list of rationals (`pandas` `.mean()` over a group):
sum divided by count. -/
def meanQ (l : List ℚ) : ℚ := qdivNat (l.foldr qadd 0) l.length

theorem qadd_eq_add (a b : ℚ) : qadd a b = a + b := by
  have ha : (a.den : ℚ) ≠ 0 := by exact_mod_cast a.den_nz
  have hb : (b.den : ℚ) ≠ 0 := by exact_mod_cast b.den_nz
  rw [qadd, Rat.mkRat_eq_div]
  conv_rhs => rw [← Rat.num_div_den a, ← Rat.num_div_den b, div_add_div _ _ ha hb]
  push_cast
  ring

theorem qdivNat_eq_div (a : ℚ) (n : ℕ) : qdivNat a n = a / n := by
  rw [qdivNat, Rat.mkRat_eq_div]
  push_cast
  rw [← div_div, Rat.num_div_den]

theorem foldr_qadd_eq_sum (l : List ℚ) : l.foldr qadd 0 = l.sum := by
  induction l with
  | nil => simp
  | cons a l ih => simp [List.foldr_cons, qadd_eq_add, ih]

theorem meanQ_eq_sum_div (l : List ℚ) : meanQ l = l.sum / l.length := by
  rw [meanQ, qdivNat_eq_div, foldr_qadd_eq_sum]

/-- A record with both a parsed date and a metric (the rows kept by
`tmp = df_sorted[['date_parsed','IVT']].dropna()`). -/
def rowHasBoth (r : Row) : Bool := r.ivt.isSome && r.date_parsed.isSome

/-- Rows with parsed date and metric. -/
def datedRows (rows : List Row) : List Row := rows.filter rowHasBoth

/-- The guard `df_sorted['date_parsed'].notna().sum() > 0` computed on the
metric-bearing rows: the entity joins the combined series iff some row has
both fields. -/
def contributes (rows : List Row) : Bool := rows.any rowHasBoth

/-- Date key of a dated row (only applied to rows with `date_parsed`
present). -/
def rowDateKey (r : Row) : ℕ := r.date_parsed.getD 0

/-- Dates (with multiplicity) of the entity's dated rows. -/
def appDates (rows : List Row) : List ℕ := (datedRows rows).map rowDateKey

/-- Metric values of the entity's dated rows on one date. -/
def valuesAt (rows : List Row) (d : ℕ) : List ℚ :=
  ((datedRows rows).filter (fun r => rowDateKey r == d)).filterMap (fun r => r.ivt)

/-- `tmp.groupby('date_parsed', as_index=False)['IVT'].mean()` then
`set_index('date_parsed')`: one row per distinct date, keys sorted
ascending, value the group mean.  (`df.sort_values('date_parsed')` before
the groupby does not affect the result: the group of a key is the same
multiset, and `groupby` re-sorts the keys.) -/
def entityFrame (rows : List Row) : List (ℕ × ℚ) :=
  (((appDates rows).dedup).insertionSort (· ≤ ·)).map (fun d => (d, meanQ (valuesAt rows d)))

/-- The date index of `pd.concat(frames, axis=1).sort_index()`: the union
of the frames' indexes, sorted ascending. -/
def combinedIndex (contribs : List (List Row)) : List ℕ :=
  (((contribs.map appDates).flatten).dedup).insertionSort (· ≤ ·)

/-- The combined series handed to the renderer: the sorted union date
index, and per contributing entity (in document order) the column of
optional cells obtained by aligning its frame on the index. -/
def combinedSeries (apps : List (List Row)) : List ℕ × List (List (Option ℚ)) :=
  let contribs := apps.filter contributes
  let idx := combinedIndex contribs
  (idx, contribs.map (fun rows => idx.map (fun d => (entityFrame rows).lookup d)))

/-- Modelled from the spec: a CombinedSeries cell holds the average of
the entity's metric values sharing the date, and is null where the entity
has no value for the date. -/
def specCell (rows : List Row) (d : ℕ) : Option ℚ :=
  if d ∈ appDates rows then
    some ((valuesAt rows d).sum / (valuesAt rows d).length)
  else none

/-- `df.dropna(subset=['IVT'])['IVT']`: the entity's non-null metric
values. -/
def entityMetrics (rows : List Row) : List ℚ :=
  (rows.filter (fun r => r.ivt.isSome)).filterMap (fun r => r.ivt)

/-- The fixed threshold `0.5` of the `(ivt > 0.5).any()` check. -/
def ivtThreshold : ℚ := mkRat 1 2

/-- `(ivt > 0.5).any()`. -/
def thresholdFlag (rows : List Row) : Bool :=
  (entityMetrics rows).any (fun v => decide (ivtThreshold < v))

/-- `(ivt == 0).all()`. -/
def allZeroFlag (rows : List Row) : Bool :=
  (entityMetrics rows).all (fun v => decide (v = 0))

/-! ### Spec-side readings used to state the claims -/

/-- Modelled from the spec: a line beginning with a `YYYY-MM-DD` token
(any four-digit year; the token ends at the end of the line or at
whitespace). -/
def specBeginsWithIsoToken (ln : List Char) : Bool :=
  match ln with
  | y1 :: y2 :: y3 :: y4 :: c1 :: m1 :: m2 :: c2 :: d1 :: d2 :: rest =>
      y1.isDigit && y2.isDigit && y3.isDigit && y4.isDigit && c1 = '-' &&
        m1.isDigit && m2.isDigit && c2 = '-' && d1.isDigit && d2.isDigit &&
        (match rest with | [] => true | c :: _ => isPySpace c)
  | _ => false

/-- Index of the first case-insensitive occurrence of the (pre-lowercased)
pattern. -/
def firstIdxCI (pat : List Char) : List Char → Option ℕ
  | [] => none
  | c :: cs => if prefCI pat (c :: cs) then some 0 else (firstIdxCI pat cs).map (· + 1)

/-- Modelled from the spec: the substring strictly between the first
occurrence of the start marker and the first following occurrence of the
end marker (case-insensitive); everything after the start if the end never
follows; empty if the start never occurs. -/
def specSectionBetween (block : List Char) : List Char :=
  match firstIdxCI dailyLower block with
  | none => []
  | some i =>
      let after := block.drop (i + dailyLower.length)
      match firstIdxCI hourlyLower after with
      | none => after
      | some j => after.take j

/-- Case-insensitive whole-string equality against a pre-lowercased
pattern. -/
def eqCI (pat cs : List Char) : Bool :=
  match stripCI pat cs with
  | some [] => true
  | _ => false

/-- Modelled from the spec: the number of lines of the document whose
content is the delimiter phrase on its own line (up to case and
surrounding whitespace). -/
def specDelimLineCount (cs : List Char) : ℕ :=
  ((splitlinesL cs).filter (fun l => eqCI totalLower (pyStrip l))).length

/-- The next character is whitespace or the line ends (a whitespace-bounded
token boundary). -/
def spaceOrEnd : List Char → Bool
  | [] => true
  | c :: _ => isPySpace c

/-- No occurrence of the closing pattern (`newline`, whitespace, end
marker) begins inside the prefix `mid` of `mid ++ tail`. -/
def cleanMid : List Char → List Char → Bool
  | [], _ => true
  | c :: m, tail => !closingAt ((c :: m) ++ tail) && cleanMid m tail

example : specDelimLineCount "Total Data\nx".toList = 1 := by decide
example : specSectionBetween "Daily Data Hourly Data".toList = [' '] := by decide
example : specBeginsWithIsoToken "1999-01-02 x 0.5".toList = true := by decide
example :
    meanQ [mkRat 1 2, mkRat 1 4] = mkRat 3 8 := by decide

/-! ### Claim C5: totality and exactness of the numeric normalizer -/

/-- Claim C5: the `_last_numeric_token` scan is total (a function into an
optional value — all failure is the null result): it returns exactly the
`float` value of the rightmost whitespace token fully matching the
numeric-literal grammar, or null when no token matches; and under the
grammar-match precondition `float` succeeds with the token's standard
decimal reading, so the internal `except: continue` branch is
unreachable. -/
theorem C5_parse_numeric_total :
    (∀ tokens : List (List Char),
        lastNumericToken tokens = (tokens.reverse.find? isNumericToken).map decValue) ∧
    (∀ t : List Char, isNumericToken t = true → pyFloatQ t = some (decValue t)) := by
  refine ⟨fun tokens => ?_, fun t h => pyFloatQ_of_isNumericToken h⟩
  rw [lastNumericToken]
  exact lastNumLoop_eq_findMap _

/-- Concrete check of C5 on a token list with a junk token after the
numeric one. -/
theorem C5_witness :
    lastNumericToken ["foo".toList, "0.5".toList, "bar".toList] =
        some (decValue "0.5".toList) ∧
    pyFloatQ "0.5".toList = some (decValue "0.5".toList) := by
  refine ⟨?_, C5_parse_numeric_total.2 _ (by decide)⟩
  rw [C5_parse_numeric_total.1]
  decide

/-! ### Claim C9: block segmenter fallback when the delimiter is absent -/

theorem occursCI_dropWhile {pat : List Char} (p : Char → Bool) :
    ∀ l : List Char, occursCI pat (l.dropWhile p) = true → occursCI pat l = true := by
  intro l
  induction l with
  | nil => simp
  | cons c cs ih =>
      rw [List.dropWhile_cons]
      split
      · intro h
        rw [occursCI, ih h, Bool.or_true]
      · exact fun h => h

theorem occursCI_of_prefCI {pat : List Char} :
    ∀ {l : List Char}, prefCI pat l = true → occursCI pat l = true := by
  intro l h
  cases l with
  | nil =>
      cases pat with
      | nil => rfl
      | cons p ps => simp [prefCI, stripCI] at h
  | cons c cs => rw [occursCI, h, Bool.true_or]

theorem matchDelimAt_none_of_not_occurs {cs : List Char}
    (h : occursCI totalLower cs = false) : matchDelimAt cs = none := by
  cases cs with
  | nil => rfl
  | cons c rest =>
      rw [matchDelimAt]
      by_cases hc : c = '\n'
      · rw [if_pos hc]
        cases hstrip : stripCI totalLower (rest.dropWhile isPySpace) with
        | none => rfl
        | some r2 =>
            exfalso
            have hpref : prefCI totalLower (rest.dropWhile isPySpace) = true := by
              simp [prefCI, hstrip]
            have hocc := occursCI_dropWhile isPySpace rest (occursCI_of_prefCI hpref)
            rw [occursCI, hocc, Bool.or_true] at h
            cases h
      · rw [if_neg hc]

theorem splitPartsF_no_occurs :
    ∀ (fuel : ℕ) (cs : List Char), cs.length < fuel →
      occursCI totalLower cs = false → splitPartsF fuel cs = [cs] := by
  intro fuel
  induction fuel with
  | zero => intro cs h; omega
  | succ f ih =>
      intro cs hf h
      cases cs with
      | nil => rfl
      | cons c cs' =>
          have hrest : occursCI totalLower cs' = false := by
            rw [occursCI, Bool.or_eq_false_iff] at h
            exact h.2
          rw [splitPartsF, matchDelimAt_none_of_not_occurs h,
            ih cs' (by simpa [List.length_cons] using Nat.lt_of_succ_lt_succ hf) hrest]

/-- Claim C9: on a non-empty document with no (case-insensitive)
occurrence of the delimiter phrase, the Block Segmenter returns exactly
one block equal to the whole input — absence of the delimiter is not an
error and never yields zero blocks. -/
theorem C9_segmenter_no_delimiter (cs : List Char) (_hne : cs ≠ [])
    (h : occursCI totalLower cs = false) : split_app_blocks cs = [cs] := by
  have hp : splitParts cs = [cs] :=
    splitPartsF_no_occurs _ _ (Nat.lt_succ_self _) h
  simp [split_app_blocks, hp]

/-- Concrete check of C9. -/
theorem C9_witness : split_app_blocks "hello\nworld".toList = ["hello\nworld".toList] :=
  C9_segmenter_no_delimiter _ (by decide) (by decide)

/-! ### Claim C3: block segmenter with k delimiter occurrences -/

/-- Claim C3 counterexample: `"Total Data\nx"` contains the delimiter
phrase on its own (first) line, yet the segmenter returns the whole
document as the single block — the block contains the delimiter phrase and
nothing preceding the delimiter is discarded (the split pattern needs a
newline before the phrase). -/
theorem C3_counterexample :
    specDelimLineCount "Total Data\nx".toList = 1 ∧
    split_app_blocks "Total Data\nx".toList = ["Total Data\nx".toList] ∧
    occursCI totalLower "Total Data\nx".toList = true := by decide

theorem splitPartsF_ne_nil : ∀ (fuel : ℕ) (cs : List Char), splitPartsF fuel cs ≠ [] := by
  intro fuel
  induction fuel with
  | zero => intro cs; simp [splitPartsF]
  | succ f ih =>
      intro cs
      cases cs with
      | nil => simp [splitPartsF]
      | cons c cs' =>
          rw [splitPartsF]
          cases matchDelimAt (c :: cs') with
          | some r => simp
          | none =>
              cases hs : splitPartsF f cs' with
              | nil => simp
              | cons p ps => simp

theorem splitPartsF_length :
    ∀ (fuel : ℕ) (cs : List Char), cs.length < fuel →
      (splitPartsF fuel cs).length = delimCountF fuel cs + 1 := by
  intro fuel
  induction fuel with
  | zero => intro cs h; omega
  | succ f ih =>
      intro cs hf
      cases cs with
      | nil => simp [splitPartsF, delimCountF]
      | cons c cs' =>
          rw [splitPartsF, delimCountF]
          cases hm : matchDelimAt (c :: cs') with
          | some r =>
              have hr : r.length < f := by
                have h1 := matchDelimAt_length_lt hm
                simp only [List.length_cons] at h1 hf
                omega
              simp [ih r hr]
          | none =>
              have hcs : cs'.length < f := by
                simp only [List.length_cons] at hf
                omega
              cases hs : splitPartsF f cs' with
              | nil => exact absurd hs (splitPartsF_ne_nil f cs')
              | cons p ps =>
                  have := ih cs' hcs
                  rw [hs] at this
                  simp only [List.length_cons] at this ⊢
                  omega

/-- Claim C3 (amended): when the delimiter pattern — a newline, optional
whitespace, the phrase, optional whitespace ending in a newline — matches
k ≥ 1 times (non-overlapping, left to right), the segmenter returns
exactly the k split segments following each match, in document order,
discarding the text before the first match; a returned block can still
contain the delimiter phrase when an occurrence is not bounded by
newlines (e.g. at document start) or shares its newline with the previous
match. -/
theorem C3_segmenter_k_blocks (cs : List Char) (h : 1 ≤ delimMatchCount cs) :
    split_app_blocks cs = (splitParts cs).drop 1 ∧
    (split_app_blocks cs).length = delimMatchCount cs := by
  have hlen : (splitParts cs).length = delimMatchCount cs + 1 :=
    splitPartsF_length _ _ (Nat.lt_succ_self _)
  have h2 : ¬ (splitParts cs).length ≤ 1 := by omega
  have h3 : delimMatchCount cs ≠ 0 := by omega
  refine ⟨by simp [split_app_blocks, h2], ?_⟩
  simp [split_app_blocks, h2, List.length_drop, hlen, h3]

/-- Concrete check of the amended C3 on a two-delimiter document. -/
theorem C3_witness :
    (split_app_blocks "intro\nTotal Data\nA\nTotal Data\nB".toList).length =
        delimMatchCount "intro\nTotal Data\nA\nTotal Data\nB".toList ∧
    delimMatchCount "intro\nTotal Data\nA\nTotal Data\nB".toList = 2 :=
  ⟨(C3_segmenter_k_blocks _ (by decide)).2, by decide⟩

/-! ### Claim C7: generic fallback rule -/

/-- Claim C7: on a line where none of the date-pattern rules fires, the
extractor yields no record when no token matches the numeric grammar
(silently, not an error), and otherwise exactly one record whose date
text is the fixed-length 40-character prefix (with an ellipsis marker when
truncated) and whose parsed date is null. -/
theorem C7_generic_fallback (ln : List Char)
    (h1 : isoRule ln = none) (h2 : phraseRule ln = none) (h3 : searchIso ln = none) :
    (lastNumericToken (splitWS ln) = none → parseLine ln = none) ∧
    (∀ v, lastNumericToken (splitWS ln) = some v →
      parseLine ln = some ⟨truncate40 ln, none, ln, some v⟩) := by
  constructor
  · intro hv
    simp only [parseLine, h1, h2, h3, hv]
  · intro v hv
    simp only [parseLine, h1, h2, h3, hv]

/-- Concrete check of C7: the claim's dateless header line yields no
record; a dateless line with a numeric token yields the fallback record. -/
theorem C7_witness :
    parseLine "Section Header Only".toList = none ∧
    parseLine "foo 5".toList =
      some ⟨"foo 5".toList, none, "foo 5".toList, some (mkRat 5 1)⟩ := by
  constructor
  · exact (C7_generic_fallback "Section Header Only".toList
      (by decide) (by decide) (by decide)).1 (by decide)
  · exact ((C7_generic_fallback "foo 5".toList
      (by decide) (by decide) (by decide)).2 (mkRat 5 1) (by decide)).trans (by decide)

/-! ### Character-class facts and splitting lemmas for the cascade rules -/

theorem space_not_digit {c : Char} (h : isPySpace c = true) : c.isDigit = false := by
  simp only [isPySpace, Bool.or_eq_true, decide_eq_true_eq] at h
  rcases h with ((((h | h) | h) | h) | h) | h <;> subst h <;> decide

theorem space_not_word {c : Char} (h : isPySpace c = true) : isWordChar c = false := by
  simp only [isPySpace, Bool.or_eq_true, decide_eq_true_eq] at h
  rcases h with ((((h | h) | h) | h) | h) | h <;> subst h <;> decide

theorem word_not_space {c : Char} (h : isWordChar c = true) : isPySpace c = false := by
  cases hsp : isPySpace c with
  | false => rfl
  | true =>
      have := space_not_word hsp
      rw [h] at this
      cases this

theorem digit_is_word {c : Char} (h : c.isDigit = true) : isWordChar c = true := by
  simp [isWordChar, h]

theorem takeWhile_append_all {p : Char → Bool} :
    ∀ (a b : List Char), (∀ c ∈ a, p c = true) →
      (∀ c l, b = c :: l → p c = false) →
      (a ++ b).takeWhile p = a ∧ (a ++ b).dropWhile p = b := by
  intro a
  induction a with
  | nil =>
      intro b _ hb
      cases b with
      | nil => simp
      | cons c l => simp [List.takeWhile_cons, List.dropWhile_cons, hb c l rfl]
  | cons x a' ih =>
      intro b ha hb
      have hx : p x = true := ha x (List.mem_cons_self x a')
      have hrec := ih b (fun c hc => ha c (List.mem_cons_of_mem _ hc)) hb
      simp [List.takeWhile_cons, List.dropWhile_cons, hx, hrec.1, hrec.2]

theorem exists_of_takeWhile_ne_nil {p : Char → Bool} {l : List Char}
    (h : (l.takeWhile p).isEmpty = false) : ∃ c l', l = c :: l' ∧ p c = true := by
  cases l with
  | nil => simp [List.takeWhile_nil] at h
  | cons c l' =>
      rw [List.takeWhile_cons] at h
      by_cases hp : p c = true
      · exact ⟨c, l', rfl, hp⟩
      · rw [Bool.not_eq_true] at hp
        simp [hp] at h

/-! ### Claims C6 and C10: the phrase-date rule -/

theorem matchIsoStart_none_one (d s : Char) (r : List Char) (hs : isPySpace s = true) :
    matchIsoStart (d :: s :: r) = none := by
  rw [matchIsoStart.eq_def]
  split
  · rename_i heq
    injection heq with _ heq2
    injection heq2 with hs2 _
    subst hs2
    exact absurd hs (by decide)
  · rfl

theorem matchIsoStart_none_two (d1 d2 s : Char) (r : List Char) (hs : isPySpace s = true) :
    matchIsoStart (d1 :: d2 :: s :: r) = none := by
  rw [matchIsoStart.eq_def]
  split
  · rename_i heq
    injection heq with _ heq2
    injection heq2 with _ heq3
    injection heq3 with hsa _
    subst hsa
    simp [space_not_digit hs]
  · rfl

/-- A line accepted by the phrase-date rule starts with at most two digits
followed by whitespace, so the ISO anchor (four leading digits) cannot
match: rule 1 never fires on such a line. -/
theorem isoRule_none_of_phraseRule {ln dl rest : List Char}
    (h : phraseRule ln = some (dl, rest)) : isoRule ln = none := by
  simp only [phraseRule] at h
  split at h
  · exact absurd h (by simp)
  · rename_i hg1
    split at h
    · exact absurd h (by simp)
    · rename_i hg2
      rw [Bool.or_eq_true, not_or] at hg1
      obtain ⟨hne, hlen⟩ := hg1
      rw [Bool.not_eq_true] at hne hg2
      have hlen2 : (ln.takeWhile Char.isDigit).length ≤ 2 := by
        rcases Nat.lt_or_ge 2 (ln.takeWhile Char.isDigit).length with hlt | hge
        · exact absurd (by simpa using hlt) (by simpa using hlen)
        · exact hge
      obtain ⟨s, r1', hr1, hsp⟩ := exists_of_takeWhile_ne_nil hg2
      have hln : ln.takeWhile Char.isDigit ++ ln.dropWhile Char.isDigit = ln :=
        List.takeWhile_append_dropWhile Char.isDigit ln
      rw [hr1] at hln
      rcases hds : ln.takeWhile Char.isDigit with _ | ⟨d1, _ | ⟨d2, _ | ⟨d3, tl⟩⟩⟩
      · rw [hds] at hne; cases hne
      · rw [hds] at hln
        rw [isoRule, ← hln, List.cons_append, List.nil_append,
          matchIsoStart_none_one d1 s r1' hsp]
      · rw [hds] at hln
        rw [isoRule, ← hln, List.cons_append, List.cons_append, List.nil_append,
          matchIsoStart_none_two d1 d2 s r1' hsp]
      · rw [hds] at hlen2
        simp at hlen2

/-- On a line matched by the phrase-date rule the extractor emits exactly
the rule's record: raw phrase as date text, null parsed date, and the
trailing-numeric-token scan of the remainder. -/
theorem parseLine_phrase {ln dl rest : List Char} (h : phraseRule ln = some (dl, rest)) :
    parseLine ln = some ⟨dl, none, rest, lastNumericToken (splitWS rest)⟩ := by
  simp only [parseLine, isoRule_none_of_phraseRule h, h]

/-- Claim C6: every line matched by the phrase-date rule yields one record
whose parsed-date field is null — only the raw phrase is kept as date
text, and the metric is the trailing numeric token of the remainder. -/
theorem C6_phrase_date_null_parsed (ln dl rest : List Char)
    (h : phraseRule ln = some (dl, rest)) :
    parseLine ln = some ⟨dl, none, rest, lastNumericToken (splitWS rest)⟩ :=
  parseLine_phrase h

/-- Concrete check of C6 on the spec's example line: date text
`"11 Sep to 15 Sep"`, parsed date null, metric `0.00427`. -/
theorem C6_witness :
    parseLine "11 Sep to 15 Sep 1191603 1189884 0.00427".toList =
      some ⟨"11 Sep to 15 Sep".toList, none, "1191603 1189884 0.00427".toList,
        some (mkRat 427 100000)⟩ := by
  have h := C6_phrase_date_null_parsed "11 Sep to 15 Sep 1191603 1189884 0.00427".toList
    "11 Sep to 15 Sep".toList "1191603 1189884 0.00427".toList (by decide)
  exact h.trans (by decide)

/-- Claim C10 (implicit): every line of the form `digits whitespace word
whitespace more-text` — one or two leading digits and any word token, not
necessarily a month name — is captured by the phrase-date rule: it emits
one record with the number-word prefix (optionally extended by a matching
`to <number> <word>` phrase) as date text and a null parsed date, and the
line never reaches the embedded-ISO or generic fallback rules. -/
theorem C10_phrase_rule_fires (ds s1 w s2 t : List Char)
    (hds : ds ≠ [] ∧ ds.length ≤ 2 ∧ allDigits ds = true)
    (hs1 : s1 ≠ [] ∧ s1.all isPySpace = true)
    (hw : w ≠ [] ∧ w.all isWordChar = true)
    (hs2 : s2 ≠ [] ∧ s2.all isPySpace = true)
    (ht : t ≠ [] ∧ spaceOrEnd t = false) :
    ∃ dl rest, phraseRule (ds ++ (s1 ++ (w ++ (s2 ++ t)))) = some (dl, rest) ∧
      parseLine (ds ++ (s1 ++ (w ++ (s2 ++ t)))) =
        some ⟨dl, none, rest, lastNumericToken (splitWS rest)⟩ ∧
      (dl = ds ++ s1 ++ w ∨
        ∃ ext r', matchToExt (s2 ++ t) = some (ext, r') ∧ dl = ds ++ s1 ++ w ++ ext) := by
  obtain ⟨hds0, hds2, hdsall⟩ := hds
  obtain ⟨hs10, hs1all⟩ := hs1
  obtain ⟨hw0, hwall⟩ := hw
  obtain ⟨hs20, hs2all⟩ := hs2
  obtain ⟨ht0, hth⟩ := ht
  obtain ⟨sc, s1', rfl⟩ := List.exists_cons_of_ne_nil hs10
  obtain ⟨wc, w', rfl⟩ := List.exists_cons_of_ne_nil hw0
  obtain ⟨c2, s2', rfl⟩ := List.exists_cons_of_ne_nil hs20
  obtain ⟨tc, t', rfl⟩ := List.exists_cons_of_ne_nil ht0
  rw [spaceOrEnd] at hth
  have hsc : isPySpace sc = true := by
    simpa using List.all_eq_true.mp hs1all sc (List.mem_cons_self _ _)
  have hwc : isWordChar wc = true := by
    simpa using List.all_eq_true.mp hwall wc (List.mem_cons_self _ _)
  have hc2 : isPySpace c2 = true := by
    simpa using List.all_eq_true.mp hs2all c2 (List.mem_cons_self _ _)
  obtain ⟨T1, D1⟩ := takeWhile_append_all (p := Char.isDigit) ds
      ((sc :: s1') ++ ((wc :: w') ++ ((c2 :: s2') ++ (tc :: t'))))
      (fun c hc => by simpa using List.all_eq_true.mp hdsall c hc)
      (fun c l hcl => by
        rw [List.cons_append] at hcl
        injection hcl with h1 _
        exact h1 ▸ space_not_digit hsc)
  obtain ⟨T2, D2⟩ := takeWhile_append_all (p := isPySpace) (sc :: s1')
      ((wc :: w') ++ ((c2 :: s2') ++ (tc :: t')))
      (fun c hc => by simpa using List.all_eq_true.mp hs1all c hc)
      (fun c l hcl => by
        rw [List.cons_append] at hcl
        injection hcl with h1 _
        exact h1 ▸ word_not_space hwc)
  obtain ⟨T3, D3⟩ := takeWhile_append_all (p := isWordChar) (wc :: w')
      ((c2 :: s2') ++ (tc :: t'))
      (fun c hc => by simpa using List.all_eq_true.mp hwall c hc)
      (fun c l hcl => by
        rw [List.cons_append] at hcl
        injection hcl with h1 _
        exact h1 ▸ space_not_word hc2)
  obtain ⟨T4, D4⟩ := takeWhile_append_all (p := isPySpace) s2' (tc :: t')
      (fun c hc => by
        have : c ∈ c2 :: s2' := List.mem_cons_of_mem _ hc
        simpa using List.all_eq_true.mp hs2all c this)
      (fun c l hcl => by
        injection hcl with h1 _
        exact h1 ▸ hth)
  have hfinal : finalTail ((c2 :: s2') ++ (tc :: t')) = some (tc :: t') := by
    rw [List.cons_append, finalTail, if_pos hc2, D4]
  have g1 : (ds.isEmpty || decide (2 < ds.length)) = false := by
    have h1 : ds.isEmpty = false := by
      cases ds with
      | nil => exact absurd rfl hds0
      | cons a l => rfl
    have h2 : decide (2 < ds.length) = false := decide_eq_false (Nat.not_lt.mpr hds2)
    rw [h1, h2, Bool.or_self]
  have hpr : phraseRule (ds ++ ((sc :: s1') ++ ((wc :: w') ++ ((c2 :: s2') ++ (tc :: t'))))) =
      (match matchToExt ((c2 :: s2') ++ (tc :: t')) with
       | some (ext, r4) =>
           (match finalTail r4 with
            | some rest => some (ds ++ (sc :: s1') ++ (wc :: w') ++ ext, rest)
            | none => some (ds ++ (sc :: s1') ++ (wc :: w'), tc :: t'))
       | none => some (ds ++ (sc :: s1') ++ (wc :: w'), tc :: t')) := by
    rw [phraseRule]
    simp only [T1, D1, T2, D2, T3, D3, g1, Bool.false_eq_true, if_false,
      List.isEmpty_cons, hfinal]
  cases hext : matchToExt ((c2 :: s2') ++ (tc :: t')) with
  | none =>
      rw [hext] at hpr
      exact ⟨ds ++ (sc :: s1') ++ (wc :: w'), tc :: t', hpr, parseLine_phrase hpr,
        Or.inl rfl⟩
  | some p =>
      obtain ⟨ext, r4⟩ := p
      rw [hext] at hpr
      dsimp only at hpr
      cases hft : finalTail r4 with
      | some rest' =>
          rw [hft] at hpr
          exact ⟨ds ++ (sc :: s1') ++ (wc :: w') ++ ext, rest', hpr, parseLine_phrase hpr,
            Or.inr ⟨ext, r4, rfl, rfl⟩⟩
      | none =>
          rw [hft] at hpr
          exact ⟨ds ++ (sc :: s1') ++ (wc :: w'), tc :: t', hpr, parseLine_phrase hpr,
            Or.inl rfl⟩

/-- Concrete check of C10 on a line whose word token is a number, not a
month name: the phrase-date rule still fires. -/
theorem C10_witness :
    ∃ dl rest, phraseRule ("12".toList ++ (" ".toList ++ ("34".toList ++
        (" ".toList ++ "x".toList)))) = some (dl, rest) ∧
      parseLine ("12".toList ++ (" ".toList ++ ("34".toList ++ (" ".toList ++ "x".toList)))) =
        some ⟨dl, none, rest, lastNumericToken (splitWS rest)⟩ ∧
      (dl = "12".toList ++ " ".toList ++ "34".toList ∨
        ∃ ext r', matchToExt (" ".toList ++ "x".toList) = some (ext, r') ∧
          dl = "12".toList ++ " ".toList ++ "34".toList ++ ext) :=
  C10_phrase_rule_fires "12".toList " ".toList "34".toList " ".toList "x".toList
    ⟨by decide, by decide, by decide⟩ ⟨by decide, by decide⟩ ⟨by decide, by decide⟩
    ⟨by decide, by decide⟩ ⟨by decide, by decide⟩

/-! ### Claim C1: the ISO-date-anchored rule -/

theorem boundaryOK_of_spaceOrEnd {t : List Char} (h : spaceOrEnd t = true) :
    boundaryOK t = true := by
  cases t with
  | nil => rfl
  | cons c r =>
      rw [spaceOrEnd] at h
      rw [boundaryOK, space_not_word h]
      rfl

/-- Rule 1 on a line made of the anchored date and a tail at a token
boundary: the match succeeds, discarding the optional clock time exactly
when it parses and keeps the word boundary. -/
theorem isoRule_at (a b c d e f : Char) (tail : List Char)
    (hd : (a.isDigit && b.isDigit && c.isDigit && d.isDigit && e.isDigit && f.isDigit) = true)
    (htok : spaceOrEnd tail = true) :
    isoRule ('2' :: '0' :: a :: b :: '-' :: c :: d :: '-' :: e :: f :: tail) =
      some (['2', '0', a, b, '-', c, d, '-', e, f], discardTime tail) := by
  have hms : matchIsoStart ('2' :: '0' :: a :: b :: '-' :: c :: d :: '-' :: e :: f :: tail) =
      some (['2', '0', a, b, '-', c, d, '-', e, f], tail) := by
    simp only [matchIsoStart, if_pos hd]
  rw [isoRule, hms, discardTime]
  dsimp only
  cases hct : clockTry tail with
  | none =>
      dsimp only
      rw [if_pos (boundaryOK_of_spaceOrEnd htok)]
  | some r =>
      dsimp only
      by_cases hb : boundaryOK r = true
      · rw [if_pos hb, if_pos hb]
      · rw [Bool.not_eq_true] at hb
        simp only [hb, Bool.false_eq_true, if_false,
          if_pos (boundaryOK_of_spaceOrEnd htok)]

/-- Claim C1 (amended): for every line beginning with a `20YY-MM-DD` token
(the code anchors the year with `20\d{2}`, so other centuries do not take
this rule), optionally followed by a clock time which is discarded, the
cascade's first rule produces exactly one record: date text is the date
token, the remainder is the stripped rest of the line, and the metric is
the last whitespace-delimited token of the remainder matching the
numeric-literal pattern, or null when no token matches. -/
theorem C1_iso_rule (a b c d e f : Char) (tail : List Char)
    (hd : (a.isDigit && b.isDigit && c.isDigit && d.isDigit && e.isDigit && f.isDigit) = true)
    (htok : spaceOrEnd tail = true) :
    parseLine ('2' :: '0' :: a :: b :: '-' :: c :: d :: '-' :: e :: f :: tail) =
      some ⟨['2', '0', a, b, '-', c, d, '-', e, f],
        tryParseDate ['2', '0', a, b, '-', c, d, '-', e, f],
        pyStrip (discardTime tail),
        lastNumericToken (if (pyStrip (discardTime tail)).isEmpty then []
          else splitWS (pyStrip (discardTime tail)))⟩ := by
  simp only [parseLine, isoRule_at a b c d e f tail hd htok]

/-- Claim C1 counterexample: the line `"1999-01-02 x 0.5"` begins with a
`YYYY-MM-DD` token, but the first rule does not fire (the code requires a
`20YY` year); the emitted record comes from the generic fallback, its date
text is the whole line rather than the date token, and its parsed date is
null. -/
theorem C1_counterexample :
    specBeginsWithIsoToken "1999-01-02 x 0.5".toList = true ∧
    parseLine "1999-01-02 x 0.5".toList =
      some ⟨"1999-01-02 x 0.5".toList, none, "1999-01-02 x 0.5".toList,
        some (mkRat 1 2)⟩ ∧
    "1999-01-02 x 0.5".toList ≠ "1999-01-02".toList := by decide

/-- Concrete check of the amended C1 on the spec's example line: the clock
time is discarded, date text is `"2025-09-12"` and the metric is
`0.00427`. -/
theorem C1_witness :
    parseLine "2025-09-12 0:00:00 foo bar 0.00427".toList =
      some ⟨"2025-09-12".toList, some 20250912, "foo bar 0.00427".toList,
        some (mkRat 427 100000)⟩ := by
  have e : "2025-09-12 0:00:00 foo bar 0.00427".toList =
      '2' :: '0' :: '2' :: '5' :: '-' :: '0' :: '9' :: '-' :: '1' :: '2' ::
        " 0:00:00 foo bar 0.00427".toList := by decide
  rw [e, C1_iso_rule '2' '5' '0' '9' '1' '2' " 0:00:00 foo bar 0.00427".toList
    (by decide) (by decide)]
  decide

/-! ### The textbook reading of the decimal values -/

theorem digit_ne_dash {c : Char} (h : c.isDigit = true) : c ≠ '-' := by
  intro heq
  subst heq
  simp [Char.isDigit] at h

/-- Bridge from the `mkRat` form of `decValue` to the standard decimal
reading of a fractional literal: integer part plus fraction over a power
of ten. -/
theorem decValue_append_dot (ds fr : List Char) (hds : allDigits ds = true)
    (hne : ds ≠ []) :
    decValue (ds ++ '.' :: fr) =
      (digitsToNat ds : ℚ) + (digitsToNat fr : ℚ) / ((10 : ℚ) ^ fr.length) := by
  obtain ⟨d0, ds', rfl⟩ := List.exists_cons_of_ne_nil hne
  have hd0 : d0.isDigit = true := by
    simpa using List.all_eq_true.mp hds d0 (List.mem_cons_self _ _)
  obtain ⟨T, D⟩ := takeWhile_append_all (p := Char.isDigit) (d0 :: ds') ('.' :: fr)
      (fun c hc => by simpa using List.all_eq_true.mp hds c hc)
      (fun c l hcl => by
        injection hcl with h1 _
        subst h1
        decide)
  have hbody : decBody ((d0 :: ds') ++ '.' :: fr) =
      mkRat (digitsToNat (d0 :: ds') * 10 ^ fr.length + digitsToNat fr) (10 ^ fr.length) := by
    rw [decBody.eq_def, D, T]
  have hdec : decValue ((d0 :: ds') ++ '.' :: fr) = decBody ((d0 :: ds') ++ '.' :: fr) := by
    rw [List.cons_append, decValue, if_neg (digit_ne_dash hd0)]
  rw [hdec, hbody, Rat.mkRat_eq_div]
  have h10 : ((10 : ℚ) ^ fr.length) ≠ 0 := by positivity
  push_cast
  field_simp

/-! ### Claim C8: summary flags -/

theorem ivtThreshold_eq_half : ivtThreshold = 1 / 2 := by
  norm_num [ivtThreshold, Rat.mkRat_eq_div]

/-- Claim C8: the threshold flag is true exactly when some non-null metric
value strictly exceeds the fixed threshold `0.5`, and the all-zero flag is
true exactly when every non-null metric value equals zero; checked on the
claim's example value lists `[0.1, 0.6, 0.2]` and `[0.0, 0.0]`. -/
theorem C8_summary_flags :
    (∀ rows : List Row,
      (thresholdFlag rows = true ↔ ∃ v ∈ entityMetrics rows, (1 : ℚ) / 2 < v) ∧
      (allZeroFlag rows = true ↔ ∀ v ∈ entityMetrics rows, v = 0)) ∧
    thresholdFlag [⟨[], none, [], some (mkRat 1 10)⟩, ⟨[], none, [], some (mkRat 3 5)⟩,
        ⟨[], none, [], some (mkRat 1 5)⟩] = true ∧
    allZeroFlag [⟨[], none, [], some 0⟩, ⟨[], none, [], some 0⟩] = true ∧
    thresholdFlag [⟨[], none, [], some 0⟩, ⟨[], none, [], some 0⟩] = false := by
  refine ⟨fun rows => ⟨?_, ?_⟩, by decide, by decide, by decide⟩
  · rw [thresholdFlag, List.any_eq_true]
    simp [ivtThreshold_eq_half]
  · rw [allZeroFlag, List.all_eq_true]
    simp

/-- Concrete instantiation of C8's equivalences at the value `0.6`. -/
theorem C8_witness :
    thresholdFlag [⟨[], none, [], some (mkRat 3 5)⟩] = true :=
  (C8_summary_flags.1 _).1.mpr
    ⟨mkRat 3 5, by decide, by norm_num [Rat.mkRat_eq_div]⟩

/-! ### Claim C2: the combined date-indexed series -/

theorem lookup_map_key (x : ℕ) (ks : List ℕ) (f : ℕ → ℚ) :
    (ks.map (fun d => (d, f d))).lookup x = if x ∈ ks then some (f x) else none := by
  induction ks with
  | nil => rfl
  | cons k ks ih =>
      by_cases hx : x = k
      · subst hx; simp [List.lookup]
      · have hbeq : (x == k) = false := beq_eq_false_iff_ne.mpr hx
        simp [List.lookup, hbeq, ih, List.mem_cons, hx]

/-- Aligning an entity's grouped frame on a date gives the spec's cell:
the mean of the values sharing the date, or null when the entity has no
value there. -/
theorem entityFrame_lookup (rows : List Row) (d : ℕ) :
    (entityFrame rows).lookup d = specCell rows d := by
  rw [entityFrame, lookup_map_key, specCell]
  have hmem : (d ∈ ((appDates rows).dedup).insertionSort (· ≤ ·)) ↔ d ∈ appDates rows := by
    rw [(List.perm_insertionSort _ _).mem_iff, List.mem_dedup]
  by_cases hd : d ∈ appDates rows
  · rw [if_pos (hmem.mpr hd), if_pos hd, meanQ_eq_sum_div]
  · rw [if_neg (fun hx => hd (hmem.mp hx)), if_neg hd]

/-- Claim C2: the combined series has one column per entity having at
least one record with both non-null parsed date and non-null metric, in
document order (entities without such a record are omitted, not an
error); its date index is the strictly ascending union of the
contributing entities' dates; and every cell is the average of the
entity's metric values sharing that date, null where the entity has no
value for the date. -/
theorem C2_combined_series (apps : List (List Row)) :
    List.Sorted (· < ·) (combinedSeries apps).1 ∧
    (∀ d, d ∈ (combinedSeries apps).1 ↔
      ∃ rows ∈ apps.filter contributes, d ∈ appDates rows) ∧
    (combinedSeries apps).2 =
      (apps.filter contributes).map
        (fun rows => (combinedSeries apps).1.map (specCell rows)) ∧
    (∀ rows : List Row, contributes rows = true ↔
      ∃ r ∈ rows, r.date_parsed.isSome = true ∧ r.ivt.isSome = true) := by
  refine ⟨?_, ?_, ?_, ?_⟩
  · have hsort : List.Sorted (· ≤ ·) (combinedSeries apps).1 :=
      List.sorted_insertionSort _ _
    have hnodup : (combinedSeries apps).1.Nodup :=
      (List.perm_insertionSort _ _).nodup_iff.mpr (List.nodup_dedup _)
    exact List.Pairwise.imp (fun h => lt_of_le_of_ne h.1 h.2) (hsort.and hnodup)
  · intro d
    show d ∈ combinedIndex (apps.filter contributes) ↔ _
    rw [combinedIndex, (List.perm_insertionSort _ _).mem_iff, List.mem_dedup,
      List.mem_flatten]
    constructor
    · rintro ⟨s, hs, hd⟩
      obtain ⟨rows, hrows, rfl⟩ := List.mem_map.mp hs
      exact ⟨rows, hrows, hd⟩
    · rintro ⟨rows, hrows, hd⟩
      exact ⟨appDates rows, List.mem_map.mpr ⟨rows, hrows, rfl⟩, hd⟩
  · show (apps.filter contributes).map
        (fun rows => (combinedSeries apps).1.map (fun d => (entityFrame rows).lookup d)) = _
    simp only [entityFrame_lookup]
  · intro rows
    simp [contributes, List.any_eq_true, rowHasBoth, Bool.and_eq_true, and_comm]

/-- Concrete check of C2 on the spec's join example: two entities with
overlapping and disjoint dates produce the sorted union index with null
cells where an entity lacks the date. -/
theorem C2_witness :
    List.Sorted (· < ·) (combinedSeries
      [[⟨[], some 20250101, [], some (mkRat 1 1)⟩,
        ⟨[], some 20250103, [], some (mkRat 2 1)⟩],
       [⟨[], some 20250101, [], some (mkRat 3 1)⟩,
        ⟨[], some 20250102, [], some (mkRat 5 1)⟩],
       [⟨[], none, [], some (mkRat 7 1)⟩]]).1 ∧
    combinedSeries
      [[⟨[], some 20250101, [], some (mkRat 1 1)⟩,
        ⟨[], some 20250103, [], some (mkRat 2 1)⟩],
       [⟨[], some 20250101, [], some (mkRat 3 1)⟩,
        ⟨[], some 20250102, [], some (mkRat 5 1)⟩],
       [⟨[], none, [], some (mkRat 7 1)⟩]] =
      ([20250101, 20250102, 20250103],
       [[some (mkRat 1 1), none, some (mkRat 2 1)],
        [some (mkRat 3 1), some (mkRat 5 1), none]]) :=
  ⟨(C2_combined_series _).1, by decide⟩

/-! ### Claim C4: the section locator -/

theorem stripCI_append {pat : List Char} :
    ∀ {cs r : List Char} (rest : List Char),
      stripCI pat cs = some r → stripCI pat (cs ++ rest) = some (r ++ rest) := by
  induction pat with
  | nil =>
      intro cs r rest h
      rw [stripCI] at h
      injection h with h'
      subst h'
      rfl
  | cons p ps ih =>
      intro cs r rest h
      cases cs with
      | nil => simp [stripCI] at h
      | cons c cs' =>
          rw [stripCI] at h
          rw [List.cons_append, stripCI]
          by_cases hc : c.toLower = p
          · rw [if_pos hc] at h ⊢
            exact ih rest h
          · rw [if_neg hc] at h
            exact absurd h (by simp)

theorem stripCI_cons_inv {p : Char} {ps cs r : List Char}
    (h : stripCI (p :: ps) cs = some r) :
    ∃ c cs', cs = c :: cs' ∧ c.toLower = p ∧ stripCI ps cs' = some r := by
  cases cs with
  | nil => simp [stripCI] at h
  | cons c cs' =>
      rw [stripCI] at h
      by_cases hc : c.toLower = p
      · exact ⟨c, cs', rfl, hc, by rwa [if_pos hc] at h⟩
      · rw [if_neg hc] at h
        exact absurd h (by simp)

theorem eqCI_strip {pat cs : List Char} (h : eqCI pat cs = true) :
    stripCI pat cs = some [] := by
  rw [eqCI] at h
  cases hs : stripCI pat cs with
  | none => rw [hs] at h; exact absurd h (by simp)
  | some r =>
      cases r with
      | nil => rfl
      | cons x xs => rw [hs] at h; exact absurd h (by simp)

theorem space_toLower_self {c : Char} (h : isPySpace c = true) : c.toLower = c := by
  simp only [isPySpace, Bool.or_eq_true, decide_eq_true_eq] at h
  rcases h with ((((h | h) | h) | h) | h) | h <;> subst h <;> decide

theorem not_space_of_toLower {c p : Char} (hp : isPySpace p = false)
    (h : c.toLower = p) : isPySpace c = false := by
  cases hsp : isPySpace c with
  | false => rfl
  | true =>
      rw [space_toLower_self hsp] at h
      subst h
      rw [hsp] at hp
      exact hp

/-- A completed start-marker match beginning at this position: the start
phrase (case-insensitively), then `\s*\n` — whitespace ending in a
newline.  `re.search` skips positions where the bare phrase occurs but is
not so completed. -/
def dailyStartAt (cs : List Char) : Bool :=
  match stripCI dailyLower cs with
  | some after => (chompNL after).isSome
  | none => false

/-- Some position of the text carries a completed start-marker match. -/
def hasDailyStart : List Char → Bool
  | [] => false
  | c :: cs => dailyStartAt (c :: cs) || hasDailyStart cs

/-- No completed start-marker match begins inside the prefix `pre` of
`pre ++ tail` (bare, uncompleted occurrences of the phrase are allowed
there). -/
def noDailyStartIn : List Char → List Char → Bool
  | [], _ => true
  | c :: p, tail => !dailyStartAt ((c :: p) ++ tail) && noDailyStartIn p tail

/-- `\s*\n` fails when the leading whitespace run has no newline. -/
theorem chompNL_none_of_no_nl :
    ∀ mid : List Char, '\n' ∉ mid.takeWhile isPySpace → chompNL mid = none := by
  intro mid
  induction mid with
  | nil => intro _; rfl
  | cons m mid' ih =>
      intro h
      by_cases hm : isPySpace m = true
      · rw [List.takeWhile_cons, if_pos hm] at h
        simp only [List.mem_cons, not_or] at h
        obtain ⟨h1, h2⟩ := h
        rw [chompNL, if_pos hm, ih h2, if_neg (fun hh => h1 hh.symm)]
      · rw [Bool.not_eq_true] at hm
        rw [chompNL, hm]
        rfl

/-- The bounded alternative fails wherever the unbounded `\s*\n` does:
`dailyAlt` can only split at a newline of the leading whitespace run. -/
theorem dailyAlt_none_of_chompNL_none :
    ∀ {cs : List Char}, chompNL cs = none → dailyAlt cs = none := by
  intro cs
  induction cs with
  | nil => intro _; rfl
  | cons c cs' ih =>
      intro h
      by_cases hsp : isPySpace c = true
      · rw [chompNL, if_pos hsp] at h
        cases hrec : chompNL cs' with
        | some r => rw [hrec] at h; exact absurd h (by simp)
        | none =>
            rw [hrec] at h
            by_cases hc : c = '\n'
            · rw [if_pos hc] at h; exact absurd h (by simp)
            · rw [dailyAlt, if_pos hsp, ih hrec]
              dsimp only
              rw [if_neg hc]
      · rw [Bool.not_eq_true] at hsp
        rw [dailyAlt, hsp]
        rfl

theorem takeWhile_append_left {p : Char → Bool} :
    ∀ (a b : List Char), a.dropWhile p ≠ [] → (a ++ b).takeWhile p = a.takeWhile p := by
  intro a
  induction a with
  | nil => intro b h; exact absurd rfl h
  | cons x a' ih =>
      intro b h
      by_cases hx : p x = true
      · rw [List.dropWhile_cons, if_pos hx] at h
        rw [List.cons_append, List.takeWhile_cons, if_pos hx,
          List.takeWhile_cons, if_pos hx, ih b h]
      · rw [Bool.not_eq_true] at hx
        simp [List.takeWhile_cons, hx]

/-- The bounded search skips a position without a completed start match
(in particular every bare occurrence of the phrase with no following
newline). -/
theorem searchDaily1_skip {c : Char} {cs : List Char}
    (h : dailyStartAt (c :: cs) = false) : searchDaily1 (c :: cs) = searchDaily1 cs := by
  rw [searchDaily1]
  cases hs : stripCI dailyLower (c :: cs) with
  | none => dsimp only
  | some after =>
      have h' : (chompNL after).isSome = false := by
        rw [dailyStartAt, hs] at h
        simpa using h
      have hnone : chompNL after = none := by
        cases hc : chompNL after with
        | none => rfl
        | some g => rw [hc] at h'; exact absurd h' (by simp)
      dsimp only
      rw [dailyAlt_none_of_chompNL_none hnone]

/-- The unbounded search skips the same positions. -/
theorem searchDaily2_skip {c : Char} {cs : List Char}
    (h : dailyStartAt (c :: cs) = false) : searchDaily2 (c :: cs) = searchDaily2 cs := by
  rw [searchDaily2]
  cases hs : stripCI dailyLower (c :: cs) with
  | none => dsimp only
  | some after =>
      have h' : (chompNL after).isSome = false := by
        rw [dailyStartAt, hs] at h
        simpa using h
      have hnone : chompNL after = none := by
        cases hc : chompNL after with
        | none => rfl
        | some g => rw [hc] at h'; exact absurd h' (by simp)
      dsimp only
      rw [hnone]

theorem searchDaily1_append (pre tail : List Char) (h : noDailyStartIn pre tail = true) :
    searchDaily1 (pre ++ tail) = searchDaily1 tail := by
  induction pre with
  | nil => simp
  | cons c p ih =>
      rw [noDailyStartIn, Bool.and_eq_true] at h
      obtain ⟨h1, h2⟩ := h
      rw [Bool.not_eq_true'] at h1
      rw [List.cons_append] at h1
      rw [List.cons_append, searchDaily1_skip h1]
      exact ih h2

theorem searchDaily2_append (pre tail : List Char) (h : noDailyStartIn pre tail = true) :
    searchDaily2 (pre ++ tail) = searchDaily2 tail := by
  induction pre with
  | nil => simp
  | cons c p ih =>
      rw [noDailyStartIn, Bool.and_eq_true] at h
      obtain ⟨h1, h2⟩ := h
      rw [Bool.not_eq_true'] at h1
      rw [List.cons_append] at h1
      rw [List.cons_append, searchDaily2_skip h1]
      exact ih h2

theorem searchDaily1_none_global :
    ∀ cs : List Char, hasDailyStart cs = false → searchDaily1 cs = none := by
  intro cs
  induction cs with
  | nil => intro _; rfl
  | cons c cs' ih =>
      intro h
      rw [hasDailyStart, Bool.or_eq_false_iff] at h
      rw [searchDaily1_skip h.1]
      exact ih h.2

theorem searchDaily2_none_global :
    ∀ cs : List Char, hasDailyStart cs = false → searchDaily2 cs = none := by
  intro cs
  induction cs with
  | nil => intro _; rfl
  | cons c cs' ih =>
      intro h
      rw [hasDailyStart, Bool.or_eq_false_iff] at h
      rw [searchDaily2_skip h.1]
      exact ih h.2

theorem lazyClose_concat (mid tail : List Char) (hmid : cleanMid mid tail = true)
    (htail : closingAt tail = true) : lazyClose (mid ++ tail) = some mid := by
  induction mid with
  | nil =>
      rw [List.nil_append]
      cases tail with
      | nil => simp [closingAt] at htail
      | cons t ts => rw [lazyClose, if_pos htail]
  | cons m mid' ih =>
      rw [cleanMid, Bool.and_eq_true] at hmid
      obtain ⟨h1, h2⟩ := hmid
      rw [Bool.not_eq_true'] at h1
      rw [List.cons_append] at h1
      rw [List.cons_append, lazyClose, if_neg (by simp [h1]), ih h2]
      rfl

/-- The closing pattern holds at a newline followed by any whitespace and
a case-insensitive spelling of the end phrase. -/
theorem closingAt_general (ws2 hl post : List Char)
    (hws : ws2.all isPySpace = true) (hhl : eqCI hourlyLower hl = true) :
    closingAt ('\n' :: (ws2 ++ (hl ++ post))) = true := by
  have hs : stripCI ('h' :: "ourly data".toList) hl = some [] := eqCI_strip hhl
  obtain ⟨h0, hl', hcons, hlow, -⟩ := stripCI_cons_inv hs
  have hh0 : isPySpace h0 = false := not_space_of_toLower (by decide) hlow
  subst hcons
  obtain ⟨-, hdrop⟩ := takeWhile_append_all (p := isPySpace) ws2 ((h0 :: hl') ++ post)
      (fun c hc => by simpa using List.all_eq_true.mp hws c hc)
      (fun c l hcl => by
        rw [List.cons_append] at hcl
        injection hcl with e1 _
        exact e1 ▸ hh0)
  rw [closingAt, hdrop]
  have hpref : stripCI hourlyLower ((h0 :: hl') ++ post) = some post := by
    have h2 := stripCI_append post hs
    rwa [List.nil_append] at h2
  rw [List.cons_append] at hpref
  simp [prefCI, hpref]

/-- Greedy `\s*\n` followed by `(.*)`: with any whitespace before the
final newline and no newline in the region's leading whitespace, the
split lands exactly after that newline. -/
theorem chompNL_ws (ws1 M : List Char) (hws : ws1.all isPySpace = true)
    (hM : chompNL M = none) : chompNL (ws1 ++ '\n' :: M) = some M := by
  induction ws1 with
  | nil =>
      rw [List.nil_append, chompNL, if_pos (by decide : isPySpace '\n' = true), hM]
      rw [if_pos rfl]
  | cons w ws ih =>
      rw [List.all_cons, Bool.and_eq_true] at hws
      rw [List.cons_append, chompNL, if_pos hws.1, ih hws.2]

/-- The bounded pattern's split point: after any whitespace and the final
newline, the lazy group runs from the region start. -/
theorem dailyAlt_ws (ws1 M g : List Char) (hws : ws1.all isPySpace = true)
    (hMalt : dailyAlt M = none) (hclose : lazyClose M = some g) :
    dailyAlt (ws1 ++ '\n' :: M) = some g := by
  induction ws1 with
  | nil =>
      rw [List.nil_append, dailyAlt, if_pos (by decide : isPySpace '\n' = true), hMalt]
      dsimp only
      rw [if_pos rfl, hclose]
  | cons w ws ih =>
      rw [List.all_cons, Bool.and_eq_true] at hws
      rw [List.cons_append, dailyAlt, if_pos hws.1, ih hws.2]

/-- Claim C4 counterexample: in `"Daily Data Hourly Data"` the start
marker occurs and the end marker follows it, so the claim's contract
demands the strictly-between substring `" "`; the code requires a newline
after the start marker (and a line-initial end marker) and returns the
empty section instead. -/
theorem C4_counterexample :
    find_daily_section "Daily Data Hourly Data".toList = [] ∧
    specSectionBetween "Daily Data Hourly Data".toList = [' '] ∧
    ([] : List Char) ≠ [' '] := by decide

/-- Claim C4 (amended): the Section Locator matches the marker phrases
case-insensitively but anchored to line structure rather than to bare
occurrences.  (1) If no occurrence of the start phrase is completed by
whitespace ending in a newline — in particular if the start phrase never
occurs — the Section is empty.  (2) If the first completed start match
(any spelling of the start phrase, optional whitespace, a final newline;
earlier uncompleted occurrences are skipped) is followed by a region
containing a non-whitespace character, whose leading whitespace holds no
newline, and whose first line-initial end occurrence (a newline, optional
whitespace, any spelling of the end phrase) sits at the region's end, the
Section is exactly that region, the boundary newlines and marker-side
whitespace excluded.  (3) If the bounded pattern matches nowhere in the
text, the Section is everything after the first completed start match's
final newline, under the same proviso on the region's leading
whitespace. -/
theorem C4_section_locator :
    (∀ cs : List Char, hasDailyStart cs = false → find_daily_section cs = []) ∧
    (∀ (pre dl ws1 mid ws2 hl post : List Char),
      eqCI dailyLower dl = true →
      eqCI hourlyLower hl = true →
      ws1.all isPySpace = true →
      ws2.all isPySpace = true →
      '\n' ∉ mid.takeWhile isPySpace →
      mid.dropWhile isPySpace ≠ [] →
      cleanMid mid ('\n' :: (ws2 ++ (hl ++ post))) = true →
      noDailyStartIn pre
        (dl ++ (ws1 ++ '\n' :: (mid ++ '\n' :: (ws2 ++ (hl ++ post))))) = true →
      find_daily_section
        (pre ++ (dl ++ (ws1 ++ '\n' :: (mid ++ '\n' :: (ws2 ++ (hl ++ post)))))) = mid) ∧
    (∀ (pre dl ws1 mid : List Char),
      eqCI dailyLower dl = true →
      ws1.all isPySpace = true →
      '\n' ∉ mid.takeWhile isPySpace →
      searchDaily1 (pre ++ (dl ++ (ws1 ++ '\n' :: mid))) = none →
      noDailyStartIn pre (dl ++ (ws1 ++ '\n' :: mid)) = true →
      find_daily_section (pre ++ (dl ++ (ws1 ++ '\n' :: mid))) = mid) := by
  refine ⟨?_, ?_, ?_⟩
  · intro cs h
    rw [find_daily_section, searchDaily1_none_global cs h, searchDaily2_none_global cs h]
  · intro pre dl ws1 mid ws2 hl post hdl hhl hws1 hws2 hmidnl hmidne hclean hpre
    have hsd : stripCI ('d' :: "aily data".toList) dl = some [] := eqCI_strip hdl
    obtain ⟨c, dl', rfl, -, -⟩ := stripCI_cons_inv hsd
    have hclosing : closingAt ('\n' :: (ws2 ++ (hl ++ post))) = true :=
      closingAt_general ws2 hl post hws2 hhl
    have hlz : lazyClose (mid ++ '\n' :: (ws2 ++ (hl ++ post))) = some mid :=
      lazyClose_concat _ _ hclean hclosing
    have hMalt : dailyAlt (mid ++ '\n' :: (ws2 ++ (hl ++ post))) = none := by
      apply dailyAlt_none_of_chompNL_none
      apply chompNL_none_of_no_nl
      rw [takeWhile_append_left _ _ hmidne]
      exact hmidnl
    have halt : dailyAlt (ws1 ++ '\n' :: (mid ++ '\n' :: (ws2 ++ (hl ++ post)))) = some mid :=
      dailyAlt_ws _ _ _ hws1 hMalt hlz
    have hstrip : stripCI dailyLower
        ((c :: dl') ++ (ws1 ++ '\n' :: (mid ++ '\n' :: (ws2 ++ (hl ++ post))))) =
        some (ws1 ++ '\n' :: (mid ++ '\n' :: (ws2 ++ (hl ++ post)))) := by
      have h2 := stripCI_append (ws1 ++ '\n' :: (mid ++ '\n' :: (ws2 ++ (hl ++ post)))) hsd
      rwa [List.nil_append] at h2
    have hs1 : searchDaily1
        (pre ++ ((c :: dl') ++ (ws1 ++ '\n' :: (mid ++ '\n' :: (ws2 ++ (hl ++ post)))))) =
        some mid := by
      rw [searchDaily1_append pre _ hpre, List.cons_append, searchDaily1]
      rw [List.cons_append] at hstrip
      rw [hstrip]
      dsimp only
      rw [halt]
    rw [find_daily_section, hs1]
  · intro pre dl ws1 mid hdl hws1 hmidnl hsearch1 hpre
    have hsd : stripCI ('d' :: "aily data".toList) dl = some [] := eqCI_strip hdl
    obtain ⟨c, dl', rfl, -, -⟩ := stripCI_cons_inv hsd
    have hstrip : stripCI dailyLower ((c :: dl') ++ (ws1 ++ '\n' :: mid)) =
        some (ws1 ++ '\n' :: mid) := by
      have h2 := stripCI_append (ws1 ++ '\n' :: mid) hsd
      rwa [List.nil_append] at h2
    have hchomp : chompNL (ws1 ++ '\n' :: mid) = some mid :=
      chompNL_ws _ _ hws1 (chompNL_none_of_no_nl mid hmidnl)
    have hs2 : searchDaily2 (pre ++ ((c :: dl') ++ (ws1 ++ '\n' :: mid))) = some mid := by
      rw [searchDaily2_append pre _ hpre, List.cons_append, searchDaily2]
      rw [List.cons_append] at hstrip
      rw [hstrip]
      dsimp only
      rw [hchomp]
    rw [find_daily_section, hsearch1, hs2]

/-- Concrete checks of the amended C4: a bare start phrase never completed
by a newline yields the empty section; a bounded section with mixed-case
markers and whitespace on both marker boundaries; and an unbounded
mixed-case section. -/
theorem C4_witness :
    find_daily_section "see Daily Data inline only".toList = [] ∧
    find_daily_section "x\nDAILY data \nA 0.1\n  Hourly DATA z".toList = "A 0.1".toList ∧
    find_daily_section "x\ndaily DATA\nM1 M2".toList = "M1 M2".toList := by
  refine ⟨C4_section_locator.1 _ (by decide), ?_, ?_⟩
  · have h := C4_section_locator.2.1 "x\n".toList "DAILY data".toList " ".toList
      "A 0.1".toList "  ".toList "Hourly DATA".toList " z".toList
      (by decide) (by decide) (by decide) (by decide) (by decide) (by decide)
      (by decide) (by decide)
    exact (by decide : "x\nDAILY data \nA 0.1\n  Hourly DATA z".toList =
      "x\n".toList ++ ("DAILY data".toList ++ (" ".toList ++ '\n' ::
        ("A 0.1".toList ++ '\n' :: ("  ".toList ++
          ("Hourly DATA".toList ++ " z".toList)))))) ▸ h
  · have h := C4_section_locator.2.2 "x\n".toList "daily DATA".toList [] "M1 M2".toList
      (by decide) (by decide) (by decide) (by decide) (by decide)
    exact (by decide : "x\ndaily DATA\nM1 M2".toList =
      "x\n".toList ++ ("daily DATA".toList ++ ([] ++ '\n' :: "M1 M2".toList))) ▸ h
